import Mathlib

/-!
# Verification of the react-challenges core logic

This file embeds the logic-bearing parts of the `react-challenges`
repository in Lean 4 and proves the specification's claims about them:

* the `useLocalStorage` hook (`src/hooks/use-local-storage`): lazy
  initialization from the durable store, the `updateValue` writer and the
  `handleStorage` cross-tab event handler;
* JSON serialization (`JSON.stringify` / `JSON.parse` as used by the hook),
  modelled executably with numbers as integers and strings as lists of
  unicode scalar values;
* the `Pagination` component of `src/routes/__root.jsx` (`visibleRows`,
  `handlePrevious`, `handleNext`);
* the `FetchUsers` component of `src/routes/challenges/search.jsx`;
* the `cartReducer` of the `ShoppingCart` component;
* the `Counter` component of `src/challenges/Counter.jsx`;
* the `useDebounce` hook, modelled from the specification (its source file
  is absent; only call sites appear in the repository).
-/

namespace ReactChallenges

/-! ## JSON values

JavaScript values that `JSON.stringify` serializes, with numbers modelled
as integers (the app only stores integral numbers: ids, timestamps) and
strings as lists of unicode scalar values.  Arrays and objects are modelled
by the mutually inductive `JsonList` / `JsonObj` so that all recursion is
plainly structural. -/

mutual

inductive Json : Type where
  | null : Json
  | bool (b : Bool) : Json
  | num (n : Int) : Json
  | str (s : List Char) : Json
  | arr (items : JsonList) : Json
  | obj (members : JsonObj) : Json

inductive JsonList : Type where
  | nil : JsonList
  | cons (hd : Json) (tl : JsonList) : JsonList

inductive JsonObj : Type where
  | nil : JsonObj
  | kv (key : List Char) (val : Json) (tl : JsonObj) : JsonObj

end

/-! ## Serialization: the model of `JSON.stringify` -/

/-- The decimal digit character for `d < 10`. -/
def digitChar (d : Nat) : Char := Char.ofNat (48 + d)

/-- The lowercase hexadecimal digit character for `n < 16`. -/
def hexDigitChar (n : Nat) : Char :=
  if n < 10 then Char.ofNat (48 + n) else Char.ofNat (87 + n)

/-- Decimal digits of a natural number, most significant first
(`JSON.stringify` output for a nonnegative number). -/
def natDigits (n : Nat) : List Char :=
  if _h : n < 10 then [digitChar n]
  else natDigits (n / 10) ++ [digitChar (n % 10)]
decreasing_by exact Nat.div_lt_self (by omega) (by omega)

/-- `JSON.stringify` output for a number (integral case). -/
def intChars (n : Int) : List Char :=
  if n < 0 then '-' :: natDigits n.natAbs else natDigits n.natAbs

/-- How `JSON.stringify` escapes one character inside a string literal:
quote and backslash get a backslash escape, the control characters get
their short escapes or a `\u00XX` escape, and everything else is emitted
literally. -/
def encodeChar (c : Char) : List Char :=
  if c = '"' then ['\\', '"']
  else if c = '\\' then ['\\', '\\']
  else if c = '\n' then ['\\', 'n']
  else if c = '\t' then ['\\', 't']
  else if c = '\r' then ['\\', 'r']
  else if c.toNat = 8 then ['\\', 'b']
  else if c.toNat = 12 then ['\\', 'f']
  else if c.toNat < 32 then
    ['\\', 'u', '0', '0', hexDigitChar (c.toNat / 16), hexDigitChar (c.toNat % 16)]
  else [c]

/-- Escaped body of a string literal. -/
def encodeStr : List Char → List Char
  | [] => []
  | c :: cs => encodeChar c ++ encodeStr cs

/-- A serialized string literal, quotes included. -/
def keyChars (s : List Char) : List Char := '"' :: (encodeStr s ++ ['"'])

mutual

/-- The model of `JSON.stringify` (character list output). -/
def stringifyChars : Json → List Char
  | .num n => intChars n
  | .null => ['n', 'u', 'l', 'l']
  | .str s => keyChars s
  | .bool true => ['t', 'r', 'u', 'e']
  | .arr items => '[' :: (arrChars items ++ [']'])
  | .bool false => ['f', 'a', 'l', 's', 'e']
  | .obj members => '\x7b' :: (objChars members ++ ['\x7d'])

/-- Comma-separated serialized array elements. -/
def arrChars : JsonList → List Char
  | .nil => []
  | .cons v .nil => stringifyChars v
  | .cons v (.cons w tl) => stringifyChars v ++ ',' :: arrChars (.cons w tl)

/-- Comma-separated serialized object members. -/
def objChars : JsonObj → List Char
  | .nil => []
  | .kv k v .nil => keyChars k ++ ':' :: stringifyChars v
  | .kv k v (.kv k2 v2 tl) =>
      keyChars k ++ ':' :: stringifyChars v ++ ',' :: objChars (.kv k2 v2 tl)

end

/-! ## Parsing: the model of `JSON.parse`

A fueled recursive-descent parser.  The top-level entry point supplies
`input.length + 1` units of fuel, which is always enough because every
recursive descent consumes at least one character.  The parser is strict
where `JSON.parse` is (it rejects corrupt input by returning `none`, the
model of a thrown `SyntaxError`), with two deliberate modelling
restrictions matching the integer number model: fractional/exponent
number forms are not accepted, and a redundant leading zero is tolerated. -/

/-- JSON whitespace. -/
def isWs (c : Char) : Bool := c = ' ' || c = '\n' || c = '\t' || c = '\r'

/-- Drop leading JSON whitespace. -/
def skipWs : List Char → List Char
  | [] => []
  | c :: cs => if isWs c then skipWs cs else c :: cs

/-- Numeric value of a decimal digit character. -/
def digitVal (c : Char) : Option Nat :=
  if 48 ≤ c.toNat ∧ c.toNat ≤ 57 then some (c.toNat - 48) else none

/-- Numeric value of a hexadecimal digit character. -/
def hexVal (c : Char) : Option Nat :=
  if 48 ≤ c.toNat ∧ c.toNat ≤ 57 then some (c.toNat - 48)
  else if 97 ≤ c.toNat ∧ c.toNat ≤ 102 then some (c.toNat - 87)
  else if 65 ≤ c.toNat ∧ c.toNat ≤ 70 then some (c.toNat - 55)
  else none

/-- Value of four hexadecimal digits, as in a `\uXXXX` escape. -/
def hex4 (a b c d : Char) : Option Nat :=
  match hexVal a, hexVal b, hexVal c, hexVal d with
  | some x, some y, some z, some w => some (((x * 16 + y) * 16 + z) * 16 + w)
  | _, _, _, _ => none

/-- Resolution of a single-character string escape. -/
def unescape (e : Char) : Option Char :=
  if e = '"' then some '"'
  else if e = '\\' then some '\\'
  else if e = '/' then some '/'
  else if e = 'n' then some '\n'
  else if e = 't' then some '\t'
  else if e = 'r' then some '\r'
  else if e = 'b' then some (Char.ofNat 8)
  else if e = 'f' then some (Char.ofNat 12)
  else none

/-- Consume leading decimal digits, accumulating their value. -/
def parseDigits : List Char → Nat → Nat × List Char
  | [], acc => (acc, [])
  | c :: cs, acc =>
    match digitVal c with
    | some d => parseDigits cs (acc * 10 + d)
    | none => (acc, c :: cs)

/-- Parse a nonnegative decimal number (at least one digit required). -/
def parseNat : List Char → Option (Nat × List Char)
  | [] => none
  | c :: cs =>
    match digitVal c with
    | some _ => some (parseDigits (c :: cs) 0)
    | none => none

/-- Parse the body of a string literal after the opening quote, returning
the decoded characters and the input after the closing quote. -/
def parseStrF : Nat → List Char → Option (List Char × List Char)
  | 0, _ => none
  | fuel + 1, l =>
    match l with
    | [] => none
    | c :: cs =>
      if c = '"' then some ([], cs)
      else if c = '\\' then
        match cs with
        | [] => none
        | e :: cs2 =>
          if e = 'u' then
            match cs2 with
            | h1 :: h2 :: h3 :: h4 :: cs3 =>
              match hex4 h1 h2 h3 h4 with
              | some code =>
                (parseStrF fuel cs3).map (fun p => (Char.ofNat code :: p.1, p.2))
              | none => none
            | _ => none
          else
            match unescape e with
            | some ch => (parseStrF fuel cs2).map (fun p => (ch :: p.1, p.2))
            | none => none
      else (parseStrF fuel cs).map (fun p => (c :: p.1, p.2))

mutual

/-- Parse one JSON value. -/
def parseValueF : Nat → List Char → Option (Json × List Char)
  | 0, _ => none
  | fuel + 1, l =>
    match skipWs l with
    | [] => none
    | c :: cs =>
      if c = 'n' then
        match cs with
        | 'u' :: 'l' :: 'l' :: r => some (.null, r)
        | _ => none
      else if c = 't' then
        match cs with
        | 'r' :: 'u' :: 'e' :: r => some (.bool true, r)
        | _ => none
      else if c = 'f' then
        match cs with
        | 'a' :: 'l' :: 's' :: 'e' :: r => some (.bool false, r)
        | _ => none
      else if c = '"' then
        match parseStrF (cs.length + 1) cs with
        | some (s, r) => some (.str s, r)
        | none => none
      else if c = '[' then
        match skipWs cs with
        | [] => none
        | c2 :: cs2 =>
          if c2 = ']' then some (.arr .nil, cs2)
          else (parseItemsF fuel (c2 :: cs2)).map (fun p => (.arr p.1, p.2))
      else if c = '\x7b' then
        match skipWs cs with
        | [] => none
        | c2 :: cs2 =>
          if c2 = '\x7d' then some (.obj .nil, cs2)
          else (parseMembersF fuel (c2 :: cs2)).map (fun p => (.obj p.1, p.2))
      else if c = '-' then
        match parseNat cs with
        | some (m, r) => some (.num (-(m : Int)), r)
        | none => none
      else
        match parseNat (c :: cs) with
        | some (m, r) => some (.num (m : Int), r)
        | none => none

/-- Parse the elements of a nonempty array, up to and including the
closing bracket. -/
def parseItemsF : Nat → List Char → Option (JsonList × List Char)
  | 0, _ => none
  | fuel + 1, l =>
    match parseValueF fuel l with
    | none => none
    | some (v, r) =>
      match skipWs r with
      | [] => none
      | c :: r2 =>
        if c = ',' then
          match parseItemsF fuel r2 with
          | some (tl, r3) => some (.cons v tl, r3)
          | none => none
        else if c = ']' then some (.cons v .nil, r2)
        else none

/-- Parse the members of a nonempty object, up to and including the
closing brace. -/
def parseMembersF : Nat → List Char → Option (JsonObj × List Char)
  | 0, _ => none
  | fuel + 1, l =>
    match skipWs l with
    | [] => none
    | c :: cs =>
      if c = '"' then
        match parseStrF (cs.length + 1) cs with
        | none => none
        | some (k, r) =>
          match skipWs r with
          | [] => none
          | c2 :: r2 =>
            if c2 = ':' then
              match parseValueF fuel r2 with
              | none => none
              | some (v, r3) =>
                match skipWs r3 with
                | [] => none
                | c3 :: r4 =>
                  if c3 = ',' then
                    match parseMembersF fuel r4 with
                    | some (tl, r5) => some (.kv k v tl, r5)
                    | none => none
                  else if c3 = '\x7d' then some (.kv k v .nil, r4)
                  else none
            else none
      else none

end

/-- The model of `JSON.parse`: `none` models a thrown `SyntaxError`. -/
def Json.parse (l : List Char) : Option Json :=
  match parseValueF (l.length + 1) l with
  | some (v, r) => match skipWs r with | [] => some v | _ :: _ => none
  | none => none

/-- The model of `JSON.stringify`. -/
def Json.stringify (v : Json) : List Char := stringifyChars v

/-! ## Round-trip: `Json.parse` inverts `Json.stringify`

The serializer's output never starts with a digit continuation, so the
round-trip lemmas are stated for any remainder whose head is not a digit
(`goodRest`); every continuation the grammar produces (`,`, `]`, `}`, end
of input) satisfies it. -/

/-- A remainder that cannot extend a just-parsed number. -/
def goodRest : List Char → Bool
  | [] => true
  | c :: _ => (digitVal c).isNone

theorem digitVal_digitChar {d : Nat} (h : d < 10) :
    digitVal (digitChar d) = some d := by
  have : ∀ x : Fin 10, digitVal (digitChar x.val) = some x.val := by decide
  exact this ⟨d, h⟩

theorem digitChar_not_ws {d : Nat} (h : d < 10) : isWs (digitChar d) = false := by
  have : ∀ x : Fin 10, isWs (digitChar x.val) = false := by decide
  exact this ⟨d, h⟩

theorem digitChar_ne {d : Nat} (h : d < 10) :
    digitChar d ≠ 'n' ∧ digitChar d ≠ 't' ∧ digitChar d ≠ 'f' ∧
    digitChar d ≠ '"' ∧ digitChar d ≠ '[' ∧ digitChar d ≠ '\x7b' ∧
    digitChar d ≠ '-' ∧ digitChar d ≠ ']' ∧ digitChar d ≠ '\x7d' := by
  have : ∀ x : Fin 10,
      digitChar x.val ≠ 'n' ∧ digitChar x.val ≠ 't' ∧ digitChar x.val ≠ 'f' ∧
      digitChar x.val ≠ '"' ∧ digitChar x.val ≠ '[' ∧ digitChar x.val ≠ '\x7b' ∧
      digitChar x.val ≠ '-' ∧ digitChar x.val ≠ ']' ∧ digitChar x.val ≠ '\x7d' := by
    decide
  exact this ⟨d, h⟩

theorem skipWs_cons_of_not_ws {c : Char} (h : isWs c = false) (l : List Char) :
    skipWs (c :: l) = c :: l := by
  simp [skipWs, h]

theorem natDigits_head (n : Nat) :
    ∃ d tl, d < 10 ∧ natDigits n = digitChar d :: tl := by
  induction n using Nat.strong_induction_on with
  | _ n ih =>
    rw [natDigits]
    by_cases h : n < 10
    · exact ⟨n, [], h, by rw [dif_pos h]⟩
    · obtain ⟨d, tl, hd, heq⟩ := ih (n / 10) (Nat.div_lt_self (by omega) (by omega))
      exact ⟨d, tl ++ [digitChar (n % 10)], hd, by rw [dif_neg h, heq]; simp⟩

theorem parseDigits_natDigits (n : Nat) : ∀ acc rest,
    parseDigits (natDigits n ++ rest) acc
      = parseDigits rest (acc * 10 ^ (natDigits n).length + n) := by
  induction n using Nat.strong_induction_on with
  | _ n ih =>
    intro acc rest
    by_cases h : n < 10
    · rw [natDigits, dif_pos h]
      simp [parseDigits, digitVal_digitChar h]
    · rw [natDigits, dif_neg h, List.append_assoc,
        ih (n / 10) (Nat.div_lt_self (by omega) (by omega))]
      simp only [List.cons_append, List.nil_append, parseDigits,
        digitVal_digitChar (Nat.mod_lt n (by omega))]
      congr 1
      rw [List.length_append, List.length_cons, List.length_nil, pow_succ,
        ← mul_assoc]
      have hdm := Nat.div_add_mod n 10
      generalize acc * 10 ^ (natDigits (n / 10)).length = m
      omega

theorem parseDigits_stop {rest : List Char} (h : goodRest rest = true) (acc : Nat) :
    parseDigits rest acc = (acc, rest) := by
  cases rest with
  | nil => rfl
  | cons c cs =>
    simp only [goodRest, Option.isNone_iff_eq_none] at h
    simp [parseDigits, h]

theorem parseNat_natDigits (n : Nat) {rest : List Char} (h : goodRest rest = true) :
    parseNat (natDigits n ++ rest) = some (n, rest) := by
  obtain ⟨d, tl, hd, heq⟩ := natDigits_head n
  rw [heq]
  simp only [List.cons_append, parseNat, digitVal_digitChar hd]
  rw [← List.cons_append, ← heq, parseDigits_natDigits n 0 rest,
    parseDigits_stop h]
  simp

theorem hexVal_hexDigitChar (x : Nat) (h : x < 16) : hexVal (hexDigitChar x) = some x := by
  have : ∀ y : Fin 16, hexVal (hexDigitChar y.val) = some y.val := by decide
  exact this ⟨x, h⟩

theorem encodeChar_length_pos (c : Char) : 1 ≤ (encodeChar c).length := by
  unfold encodeChar
  split_ifs <;> simp

theorem encodeStr_length_ge (s : List Char) : s.length ≤ (encodeStr s).length := by
  induction s with
  | nil => simp [encodeStr]
  | cons c cs ih =>
    simp only [encodeStr, List.length_append, List.length_cons]
    have := encodeChar_length_pos c
    omega

theorem parseStrF_quote (f : Nat) (l : List Char) :
    parseStrF (f + 1) ('"' :: l) = some ([], l) := rfl

theorem parseStrF_plain (f : Nat) {c : Char} (h1 : c ≠ '"') (h2 : c ≠ '\\')
    (l : List Char) :
    parseStrF (f + 1) (c :: l) = (parseStrF f l).map (fun p => (c :: p.1, p.2)) := by
  simp only [parseStrF]
  rw [if_neg h1, if_neg h2]

theorem parseStrF_esc (f : Nat) (e ch : Char) (he : unescape e = some ch)
    (hne : e ≠ 'u') (l : List Char) :
    parseStrF (f + 1) ('\\' :: e :: l)
      = (parseStrF f l).map (fun p => (ch :: p.1, p.2)) := by
  simp only [parseStrF]
  simp [hne, he]

theorem parseStrF_u (f : Nat) {h1 h2 h3 h4 : Char} {code : Nat}
    (hh : hex4 h1 h2 h3 h4 = some code) (l : List Char) :
    parseStrF (f + 1) ('\\' :: 'u' :: h1 :: h2 :: h3 :: h4 :: l)
      = (parseStrF f l).map (fun p => (Char.ofNat code :: p.1, p.2)) := by
  simp only [parseStrF]
  simp [hh]

theorem parseStrF_encodeStr (s : List Char) : ∀ (fuel : Nat) (rest : List Char),
    s.length < fuel →
    parseStrF fuel (encodeStr s ++ '"' :: rest) = some (s, rest) := by
  induction s with
  | nil =>
    intro fuel rest h
    obtain ⟨f, rfl⟩ : ∃ f, fuel = f + 1 := ⟨fuel - 1, by omega⟩
    simp [encodeStr, parseStrF_quote]
  | cons c s ih =>
    intro fuel rest h
    obtain ⟨f, rfl⟩ : ∃ f, fuel = f + 1 := ⟨fuel - 1, by omega⟩
    have hf : s.length < f := by simp only [List.length_cons] at h; omega
    have ihf := ih f rest hf
    by_cases h1 : c = '"'
    · subst h1
      rw [show encodeStr ('"' :: s) = '\\' :: '"' :: encodeStr s from by
        simp [encodeStr, encodeChar]]
      rw [List.cons_append, List.cons_append,
        parseStrF_esc f '"' '"' (by decide) (by decide), ihf]
      rfl
    · by_cases h2 : c = '\\'
      · subst h2
        rw [show encodeStr ('\\' :: s) = '\\' :: '\\' :: encodeStr s from by
          simp [encodeStr, encodeChar]]
        rw [List.cons_append, List.cons_append,
          parseStrF_esc f '\\' '\\' (by decide) (by decide), ihf]
        rfl
      · by_cases h3 : c = '\n'
        · subst h3
          rw [show encodeStr ('\n' :: s) = '\\' :: 'n' :: encodeStr s from by
            simp [encodeStr, encodeChar]]
          rw [List.cons_append, List.cons_append,
            parseStrF_esc f 'n' '\n' (by decide) (by decide), ihf]
          rfl
        · by_cases h4 : c = '\t'
          · subst h4
            rw [show encodeStr ('\t' :: s) = '\\' :: 't' :: encodeStr s from by
              simp [encodeStr, encodeChar]]
            rw [List.cons_append, List.cons_append,
              parseStrF_esc f 't' '\t' (by decide) (by decide), ihf]
            rfl
          · by_cases h5 : c = '\r'
            · subst h5
              rw [show encodeStr ('\r' :: s) = '\\' :: 'r' :: encodeStr s from by
                simp [encodeStr, encodeChar]]
              rw [List.cons_append, List.cons_append,
                parseStrF_esc f 'r' '\r' (by decide) (by decide), ihf]
              rfl
            · by_cases h6 : c.toNat = 8
              · have hc : c = Char.ofNat 8 := by
                  rw [← h6, Char.ofNat_toNat]
                rw [show encodeStr (c :: s) = '\\' :: 'b' :: encodeStr s from by
                  simp [encodeStr, encodeChar, h1, h2, h3, h4, h5, h6]]
                rw [List.cons_append, List.cons_append,
                  parseStrF_esc f 'b' (Char.ofNat 8) (by decide) (by decide), ihf]
                rw [hc]
                rfl
              · by_cases h7 : c.toNat = 12
                · have hc : c = Char.ofNat 12 := by
                    rw [← h7, Char.ofNat_toNat]
                  rw [show encodeStr (c :: s) = '\\' :: 'f' :: encodeStr s from by
                    simp [encodeStr, encodeChar, h1, h2, h3, h4, h5, h6, h7]]
                  rw [List.cons_append, List.cons_append,
                    parseStrF_esc f 'f' (Char.ofNat 12) (by decide) (by decide), ihf]
                  rw [hc]
                  rfl
                · by_cases h8 : c.toNat < 32
                  · rw [show encodeStr (c :: s)
                        = '\\' :: 'u' :: '0' :: '0' :: hexDigitChar (c.toNat / 16)
                            :: hexDigitChar (c.toNat % 16) :: encodeStr s from by
                      simp [encodeStr, encodeChar, h1, h2, h3, h4, h5, h6, h7, h8]]
                    have hx : hex4 '0' '0' (hexDigitChar (c.toNat / 16))
                        (hexDigitChar (c.toNat % 16)) = some c.toNat := by
                      simp only [hex4, show hexVal '0' = some 0 from rfl,
                        hexVal_hexDigitChar (c.toNat / 16) (by omega),
                        hexVal_hexDigitChar (c.toNat % 16) (by omega),
                        Option.some.injEq]
                      omega
                    simp only [List.cons_append]
                    rw [parseStrF_u f hx, ihf, Char.ofNat_toNat]
                    rfl
                  · rw [show encodeStr (c :: s) = c :: encodeStr s from by
                      simp [encodeStr, encodeChar, h1, h2, h3, h4, h5, h6, h7, h8]]
                    rw [List.cons_append, parseStrF_plain f h1 h2, ihf]
                    rfl

/-! `rv`/`rl`/`ro`: fuel sufficient for the parser to re-read the
serialization of a value / array tail / object tail. -/

mutual

def rv : Json → Nat
  | .null => 1
  | .bool _ => 1
  | .num _ => 1
  | .str _ => 1
  | .arr items => 1 + rl items
  | .obj members => 1 + ro members

def rl : JsonList → Nat
  | .nil => 1
  | .cons v tl => 1 + max (rv v) (rl tl)

def ro : JsonObj → Nat
  | .nil => 1
  | .kv _ v tl => 1 + max (rv v) (ro tl)

end

theorem rv_pos (v : Json) : 1 ≤ rv v := by
  cases v <;> simp [rv]

theorem rl_pos (items : JsonList) : 1 ≤ rl items := by
  cases items <;> simp [rl]

theorem ro_pos (members : JsonObj) : 1 ≤ ro members := by
  cases members <;> simp [ro]

/-- The serializer's output is nonempty and starts with a character that is
not whitespace and not a closing delimiter. -/
theorem stringify_headChar (v : Json) :
    ∃ c tl, stringifyChars v = c :: tl ∧ isWs c = false ∧
      c ≠ ']' ∧ c ≠ '\x7d' := by
  have hlit : ∀ c ∈ ['n', 't', 'f', '"', '[', '\x7b', '-'],
      isWs c = false ∧ c ≠ ']' ∧ c ≠ '\x7d' := by decide
  cases v with
  | num n =>
    by_cases hn : n < 0
    · refine ⟨'-', natDigits n.natAbs, ?_, hlit '-' (by decide)⟩
      simp [stringifyChars, intChars, hn]
    · obtain ⟨d, tl, hd, heq⟩ := natDigits_head n.natAbs
      obtain ⟨hne1, hne2, hne3, hne4, hne5, hne6, hne7, hne8, hne9⟩ :=
        digitChar_ne hd
      refine ⟨digitChar d, tl, ?_, digitChar_not_ws hd, hne8, hne9⟩
      simp [stringifyChars, intChars, hn, heq]
  | bool b => cases b with
    | true => exact ⟨'t', _, rfl, hlit 't' (by decide)⟩
    | false => exact ⟨'f', _, rfl, hlit 'f' (by decide)⟩
  | null => exact ⟨'n', _, rfl, hlit 'n' (by decide)⟩
  | str s => exact ⟨'"', _, rfl, hlit '"' (by decide)⟩
  | arr items => exact ⟨'[', _, rfl, hlit '[' (by decide)⟩
  | obj members => exact ⟨'\x7b', _, rfl, hlit '\x7b' (by decide)⟩

theorem arrChars_cons_head (v : Json) (tl : JsonList) :
    ∃ c ctl, arrChars (.cons v tl) = c :: ctl ∧ isWs c = false ∧
      c ≠ ']' ∧ c ≠ '\x7d' := by
  obtain ⟨c, ctl, hceq, hws, hne1, hne2⟩ := stringify_headChar v
  cases tl with
  | nil => exact ⟨c, ctl, by simp [arrChars, hceq], hws, hne1, hne2⟩
  | cons w tl2 =>
    exact ⟨c, ctl ++ ',' :: arrChars (.cons w tl2),
      by simp [arrChars, hceq], hws, hne1, hne2⟩

theorem objChars_kv_head (k : List Char) (v : Json) (tl : JsonObj) :
    ∃ ctl, objChars (.kv k v tl) = '"' :: ctl := by
  cases tl with
  | nil =>
    exact ⟨encodeStr k ++ '"' :: ':' :: stringifyChars v,
      by simp [objChars, keyChars]⟩
  | kv k2 v2 tl2 =>
    exact ⟨encodeStr k ++ '"' :: ':'
        :: (stringifyChars v ++ ',' :: objChars (.kv k2 v2 tl2)),
      by simp [objChars, keyChars]⟩

mutual

theorem parseValueF_stringify : ∀ (v : Json) (fuel : Nat) (rest : List Char),
    rv v ≤ fuel → goodRest rest = true →
    parseValueF fuel (stringifyChars v ++ rest) = some (v, rest)
  | v, 0, _, hf, _ => absurd hf (by have := rv_pos v; omega)
  | .null, _ + 1, rest, _, _ => rfl
  | .bool true, _ + 1, rest, _, _ => rfl
  | .bool false, _ + 1, rest, _, _ => rfl
  | .num n, f + 1, rest, _, hr => by
    by_cases hn : n < 0
    · simp only [stringifyChars, intChars, hn, if_true, List.cons_append]
      have hpn : parseNat (natDigits n.natAbs ++ rest) = some (n.natAbs, rest) :=
        parseNat_natDigits n.natAbs hr
      simp only [parseValueF, skipWs_cons_of_not_ws (show isWs '-' = false from rfl)]
      rw [if_neg (by decide), if_neg (by decide), if_neg (by decide),
        if_neg (by decide), if_neg (by decide), if_neg (by decide),
        if_pos trivial, hpn]
      have hcast : (-(n.natAbs : Int)) = n := by omega
      simp only [hcast]
    · simp only [stringifyChars, intChars, hn, if_false]
      obtain ⟨d, tl, hd, heq⟩ := natDigits_head n.natAbs
      obtain ⟨hne1, hne2, hne3, hne4, hne5, hne6, hne7, hne8, hne9⟩ :=
        digitChar_ne hd
      have hpn : parseNat (natDigits n.natAbs ++ rest) = some (n.natAbs, rest) :=
        parseNat_natDigits n.natAbs hr
      rw [heq] at hpn ⊢
      simp only [List.cons_append] at hpn ⊢
      simp only [parseValueF, skipWs_cons_of_not_ws (digitChar_not_ws hd)]
      rw [if_neg hne1, if_neg hne2, if_neg hne3, if_neg hne4, if_neg hne5,
        if_neg hne6, if_neg hne7, hpn]
      have hcast : (n.natAbs : Int) = n := by omega
      simp only [hcast]
  | .str s, _ + 1, rest, _, _ => by
    simp only [stringifyChars, keyChars, List.cons_append, List.append_assoc,
      List.singleton_append, List.nil_append]
    have hps : parseStrF ((encodeStr s ++ '"' :: rest).length + 1)
        (encodeStr s ++ '"' :: rest) = some (s, rest) := by
      apply parseStrF_encodeStr
      have := encodeStr_length_ge s
      simp only [List.length_append, List.length_cons]
      omega
    simp only [parseValueF, skipWs_cons_of_not_ws (show isWs '"' = false from rfl)]
    rw [if_neg (by decide), if_neg (by decide), if_neg (by decide),
      if_pos trivial, hps]
  | .arr .nil, _ + 1, rest, _, _ => rfl
  | .arr (.cons v tl), f + 1, rest, hf, _ => by
    have hfl : rl (.cons v tl) ≤ f := by
      simp only [rv] at hf; omega
    have hitems := parseItemsF_arrChars (.cons v tl) f rest hfl (by simp)
    obtain ⟨c, ctl, hceq, hws, hne1, hne2⟩ := arrChars_cons_head v tl
    rw [hceq] at hitems
    simp only [List.cons_append] at hitems
    simp only [stringifyChars, List.cons_append, List.append_assoc,
      List.singleton_append, List.nil_append]
    simp only [parseValueF, skipWs_cons_of_not_ws (show isWs '[' = false from rfl)]
    rw [if_neg (by decide), if_neg (by decide), if_neg (by decide),
      if_neg (by decide), if_pos trivial]
    rw [hceq]
    simp only [List.cons_append, skipWs_cons_of_not_ws hws, if_neg hne1, hitems,
      Option.map_some']
  | .obj .nil, _ + 1, rest, _, _ => rfl
  | .obj (.kv k v tl), f + 1, rest, hf, _ => by
    have hfo : ro (.kv k v tl) ≤ f := by
      simp only [rv] at hf; omega
    have hmem := parseMembersF_objChars (.kv k v tl) f rest hfo (by simp)
    obtain ⟨ctl, hceq⟩ := objChars_kv_head k v tl
    rw [hceq] at hmem
    simp only [List.cons_append] at hmem
    simp only [stringifyChars, List.cons_append, List.append_assoc,
      List.singleton_append, List.nil_append]
    simp only [parseValueF, skipWs_cons_of_not_ws (show isWs '\x7b' = false from rfl)]
    rw [if_neg (by decide), if_neg (by decide), if_neg (by decide),
      if_neg (by decide), if_neg (by decide), if_pos trivial]
    rw [hceq]
    simp only [List.cons_append,
      skipWs_cons_of_not_ws (show isWs '"' = false from rfl),
      if_neg (show ('"' : Char) ≠ '\x7d' from by decide), hmem, Option.map_some']

theorem parseItemsF_arrChars : ∀ (items : JsonList) (fuel : Nat) (rest : List Char),
    rl items ≤ fuel → items ≠ .nil →
    parseItemsF fuel (arrChars items ++ ']' :: rest) = some (items, rest)
  | items, 0, _, hf, _ => absurd hf (by have := rl_pos items; omega)
  | .nil, _ + 1, _, _, hne => absurd rfl hne
  | .cons v .nil, f + 1, rest, hf, _ => by
    have hfv : rv v ≤ f := by
      simp only [rl] at hf; omega
    have hv := parseValueF_stringify v f (']' :: rest) hfv rfl
    simp only [arrChars, parseItemsF, hv]
    simp [skipWs_cons_of_not_ws (show isWs ']' = false from rfl)]
  | .cons v (.cons w tl2), f + 1, rest, hf, _ => by
    have hfv : rv v ≤ f := by
      simp only [rl] at hf; omega
    have hftl : rl (.cons w tl2) ≤ f := by
      simp only [rl] at hf ⊢; omega
    have hv := parseValueF_stringify v f
      (',' :: (arrChars (.cons w tl2) ++ ']' :: rest)) hfv rfl
    have htl := parseItemsF_arrChars (.cons w tl2) f rest hftl (by simp)
    simp only [arrChars, List.cons_append, List.append_assoc, List.nil_append]
    simp only [parseItemsF, hv]
    simp [skipWs_cons_of_not_ws (show isWs ',' = false from rfl), htl]

theorem parseMembersF_objChars : ∀ (ms : JsonObj) (fuel : Nat) (rest : List Char),
    ro ms ≤ fuel → ms ≠ .nil →
    parseMembersF fuel (objChars ms ++ '\x7d' :: rest) = some (ms, rest)
  | ms, 0, _, hf, _ => absurd hf (by have := ro_pos ms; omega)
  | .nil, _ + 1, _, _, hne => absurd rfl hne
  | .kv k v tl, f + 1, rest, hf, _ => by
    have hfv : rv v ≤ f := by
      simp only [ro] at hf; omega
    cases tl with
    | nil =>
      have hv := parseValueF_stringify v f ('\x7d' :: rest) hfv rfl
      have hps : parseStrF
          ((encodeStr k ++ '"' :: ':' :: (stringifyChars v ++ '\x7d' :: rest)).length + 1)
          (encodeStr k ++ '"' :: ':' :: (stringifyChars v ++ '\x7d' :: rest))
          = some (k, ':' :: (stringifyChars v ++ '\x7d' :: rest)) := by
        apply parseStrF_encodeStr
        have := encodeStr_length_ge k
        simp only [List.length_append, List.length_cons]
        omega
      simp only [objChars, keyChars, List.cons_append, List.append_assoc,
        List.singleton_append, List.nil_append]
      simp only [parseMembersF, skipWs_cons_of_not_ws (show isWs '"' = false from rfl)]
      rw [if_pos trivial, hps]
      simp only [skipWs_cons_of_not_ws (show isWs ':' = false from rfl)]
      rw [if_pos trivial, hv]
      simp [skipWs_cons_of_not_ws (show isWs '\x7d' = false from rfl)]
    | kv k2 v2 tl2 =>
      have hftl : ro (.kv k2 v2 tl2) ≤ f := by
        simp only [ro] at hf ⊢; omega
      have htl := parseMembersF_objChars (.kv k2 v2 tl2) f rest hftl (by simp)
      have hv := parseValueF_stringify v f
        (',' :: (objChars (.kv k2 v2 tl2) ++ '\x7d' :: rest)) hfv rfl
      have hps : parseStrF
          ((encodeStr k ++ '"' :: ':'
            :: (stringifyChars v ++ ',' :: (objChars (.kv k2 v2 tl2) ++ '\x7d' :: rest))).length + 1)
          (encodeStr k ++ '"' :: ':'
            :: (stringifyChars v ++ ',' :: (objChars (.kv k2 v2 tl2) ++ '\x7d' :: rest)))
          = some (k, ':' :: (stringifyChars v ++ ','
              :: (objChars (.kv k2 v2 tl2) ++ '\x7d' :: rest))) := by
        apply parseStrF_encodeStr
        have := encodeStr_length_ge k
        simp only [List.length_append, List.length_cons]
        omega
      simp only [objChars, keyChars, List.cons_append, List.append_assoc,
        List.singleton_append, List.nil_append]
      simp only [parseMembersF, skipWs_cons_of_not_ws (show isWs '"' = false from rfl)]
      rw [if_pos trivial, hps]
      simp only [skipWs_cons_of_not_ws (show isWs ':' = false from rfl)]
      rw [if_pos trivial, hv]
      simp [skipWs_cons_of_not_ws (show isWs ',' = false from rfl), htl]

end



theorem stringify_length_pos (v : Json) : 1 ≤ (stringifyChars v).length := by
  obtain ⟨c, tl, heq, _, _, _⟩ := stringify_headChar v
  simp [heq]

mutual

theorem rv_le : ∀ v : Json, rv v ≤ (stringifyChars v).length
  | .null => by simp [rv, stringifyChars]
  | .bool true => by simp [rv, stringifyChars]
  | .bool false => by simp [rv, stringifyChars]
  | .num n => by
    obtain ⟨d, tl, hd, heq⟩ := natDigits_head n.natAbs
    by_cases hn : n < 0 <;> simp [rv, stringifyChars, intChars, hn, heq]
  | .str s => by simp [rv, stringifyChars, keyChars]
  | .arr items => by
    have h := rl_le items
    simp only [rv, stringifyChars, List.length_cons, List.length_append,
      List.length_singleton]
    omega
  | .obj ms => by
    have h := ro_le ms
    simp only [rv, stringifyChars, List.length_cons, List.length_append,
      List.length_singleton]
    omega

theorem rl_le : ∀ items : JsonList, rl items ≤ (arrChars items).length + 1
  | .nil => by simp [rl, arrChars]
  | .cons v .nil => by
    have h1 := rv_le v
    have h2 := stringify_length_pos v
    simp only [rl, arrChars]
    omega
  | .cons v (.cons w tl2) => by
    have h1 := rv_le v
    have h2 := stringify_length_pos v
    have h3 := rl_le (.cons w tl2)
    simp only [rl, arrChars, List.length_append, List.length_cons] at h3 ⊢
    omega

theorem ro_le : ∀ ms : JsonObj, ro ms ≤ (objChars ms).length + 1
  | .nil => by simp [ro, objChars]
  | .kv k v .nil => by
    have h1 := rv_le v
    have h2 := stringify_length_pos v
    simp only [ro, objChars, keyChars, List.length_append, List.length_cons]
    omega
  | .kv k v (.kv k2 v2 tl2) => by
    have h1 := rv_le v
    have h2 := stringify_length_pos v
    have h3 := ro_le (.kv k2 v2 tl2)
    simp only [ro, objChars, keyChars, List.length_append, List.length_cons] at h3 ⊢
    omega

end

theorem Json.parse_stringify (v : Json) : Json.parse (Json.stringify v) = some v := by
  unfold Json.parse Json.stringify
  have h := parseValueF_stringify v ((stringifyChars v).length + 1) []
    (by have := rv_le v; omega) rfl
  rw [List.append_nil] at h
  rw [h]
  rfl


/-! ## The persistent-value primitive: `useLocalStorage`

The durable store is a key-indexed map to serialized text (`none` models
an absent entry, the `null` return of `localStorage.getItem`).  Thrown
exceptions are modelled by `Except Unit`: a function returning
`Except.error ()` is one whose JavaScript original throws at that point. -/

/-- The state of one `useLocalStorage` instance: the in-memory React
state `value`, and the durable store contents. -/
structure LSState where
  value : Json
  store : String → Option (List Char)

/-- The body of the lazy `useState` initializer of `useLocalStorage` (the
code inside its `try`): read `localStorage.getItem(key)`; a missing entry
("null") or empty string is falsy and yields `initialValue`; otherwise the
raw text goes through `JSON.parse`, whose failure throws. -/
def useLocalStorageInitRaw (store : String → Option (List Char)) (key : String)
    (initialValue : Json) : Except Unit Json :=
  match store key with
  | none => .ok initialValue
  | some stored =>
    if stored = [] then .ok initialValue
    else
      match Json.parse stored with
      | some v => .ok v
      | none => .error ()

/-- `try { body } catch { return fallback }`. -/
def tryCatch (body : Except Unit Json) (fallback : Json) : Json :=
  match body with
  | .ok v => v
  | .error () => fallback

/-- The lazy initializer of `useLocalStorage`, `try`/`catch` included:
it can only return a value, never throw. -/
def useLocalStorageInit (store : String → Option (List Char)) (key : String)
    (initialValue : Json) : Json :=
  tryCatch (useLocalStorageInitRaw store key initialValue) initialValue

/-- The try-block of `updateValue`: `setValue(newValue)` runs first and
always succeeds; the serialize-and-write step (`JSON.stringify` plus
`localStorage.setItem`) may throw — quota exceeded, store disabled or a
serialization failure — which the `canWrite` flag models.  The result is
the state at block exit paired with whether the block threw. -/
def updateValueBody (canWrite : Bool) (st : LSState) (key : String)
    (newValue : Json) : LSState × Bool :=
  let st1 : LSState := { st with value := newValue }
  if canWrite then
    ({ st1 with store :=
        fun k => if k = key then some (Json.stringify newValue) else st.store k },
      false)
  else (st1, true)

/-- `updateValue`: the try-block under `catch { /* fail silently or log */ }`.
The state reached when the block exits (normally or by throwing) is kept,
and nothing is rethrown. -/
def updateValue (canWrite : Bool) (st : LSState) (key : String)
    (newValue : Json) : LSState :=
  (updateValueBody canWrite st key newValue).1

/-- A `storage` event as delivered when another tab writes the store:
the affected key and the new raw value (`none` models the entry's
removal). -/
structure StorageEvent where
  key : String
  newValue : Option (List Char)

/-- The `handleStorage` listener of `useLocalStorage`.  Faithful to the
source, there is no `try`/`catch` around `JSON.parse(e.newValue)`: a parse
failure propagates out of the handler (`Except.error ()`) and `setValue`
is never reached.  On success the result is the new in-memory value. -/
def handleStorage (key : String) (initialValue : Json) (current : Json)
    (e : StorageEvent) : Except Unit Json :=
  if e.key = key then
    match e.newValue with
    | none => .ok initialValue
    | some raw =>
      if raw = [] then .ok initialValue
      else
        match Json.parse raw with
        | some v => .ok v
        | none => .error ()
  else .ok current

/-! ## Pagination (`Pagination` in `src/routes/__root.jsx`) -/

/-- `visibleRows`: `data.slice((currentPage-1)*itemsPerPage,
(currentPage-1)*itemsPerPage + itemsPerPage)` — `Array.prototype.slice`
clamps both indices to the array bounds. -/
def visibleRows {α : Type} (data : List α) (itemsPerPage currentPage : Nat) :
    List α :=
  (data.drop ((currentPage - 1) * itemsPerPage)).take itemsPerPage

/-- `totalPages`: `Math.ceil(data.length / itemsPerPage)`. -/
def totalPages (length itemsPerPage : Nat) : Nat :=
  (length + itemsPerPage - 1) / itemsPerPage

/-- A navigation click: the Previous or Next button. -/
inductive PageNav where
  | previous : PageNav
  | next : PageNav

/-- `handlePrevious` / `handleNext`:
`setCurrentPage(prev => Math.max(1, prev - 1))` and
`setCurrentPage(prev => Math.min(totalPages, prev + 1))`. -/
def pageStep (tp : Nat) (currentPage : Nat) : PageNav → Nat
  | .previous => max 1 (currentPage - 1)
  | .next => min tp (currentPage + 1)

/-- The current page after a sequence of navigation clicks, starting from
the initial `useState(1)`. -/
def runNav (tp : Nat) (steps : List PageNav) : Nat :=
  steps.foldl (pageStep tp) 1

/-! ## `FetchUsers` (`src/routes/challenges/search.jsx`, fetch-users route) -/

/-- How one fetch attempt of the mount effect can end: an ok response
with its payload (`data.users || []`), a non-ok HTTP response, a network
failure carrying the error message, or an abort triggered by unmount. -/
inductive FetchOutcome where
  | success (users : List String)
  | httpError (status : Nat)
  | networkError (message : String)
  | aborted

/-- The component state: `users`, `isLoading`, `error`. -/
structure FetchState where
  users : List String
  isLoading : Bool
  error : Option String

/-- The message of `new Error` thrown on a non-ok response. -/
def httpErrorMessage (status : Nat) : String :=
  "HTTP error! Status: " ++ toString status

/-- One run of the mount effect's `fetchUsers`: set loading, clear the
error, await the fetch; an ok response stores the users, a non-ok
response throws and the `catch` records its message, a network error is
likewise recorded — but an `AbortError` is filtered out by
`err.name !== 'AbortError'` and leaves the error unset; `finally` clears
the loading flag. -/
def runFetch (st : FetchState) (o : FetchOutcome) : FetchState :=
  let st1 : FetchState := { st with isLoading := true, error := none }
  let st2 : FetchState :=
    match o with
    | .success us => { st1 with users := us }
    | .httpError status => { st1 with error := some (httpErrorMessage status) }
    | .networkError msg => { st1 with error := some msg }
    | .aborted => st1
  { st2 with isLoading := false }

/-- How a manual refetch can end (its fetch carries no abort signal). -/
inductive RefetchOutcome where
  | success (users : List String)
  | httpError (status : Nat)
  | networkError (message : String)

/-- `handleRefetch`, the click handler of the error view's Try Again
button: reset loading/error and run one more fetch; any failure message
is recorded. -/
def handleRefetch (st : FetchState) (o : RefetchOutcome) : FetchState :=
  let st1 : FetchState := { st with isLoading := true, error := none }
  let st2 : FetchState :=
    match o with
    | .success us => { st1 with users := us }
    | .httpError status => { st1 with error := some (httpErrorMessage status) }
    | .networkError msg => { st1 with error := some msg }
  { st2 with isLoading := false }

/-- The user-triggerable actions a rendered view offers. -/
inductive FetchAction where
  | refetch

/-- What the component renders: the error view displays the recorded
message together with a retry button wired to `handleRefetch`. -/
inductive FetchView where
  | loadingView
  | errorView (message : String) (retry : FetchAction)
  | emptyView
  | usersView (users : List String)

/-- The render logic: loading, then error (message + Try Again button),
then empty state, then the user list. -/
def renderFetchUsers (st : FetchState) : FetchView :=
  if st.isLoading then .loadingView
  else
    match st.error with
    | some msg => .errorView msg .refetch
    | none => if st.users.isEmpty then .emptyView else .usersView st.users

/-- Clicking a rendered action: the only one is Try Again, which performs
a single manual `handleRefetch` — no automatic retry exists anywhere. -/
def applyFetchAction (st : FetchState) : FetchAction → RefetchOutcome → FetchState
  | .refetch, o => handleRefetch st o

/-! ## The debounce primitive -/

/-- Modelled from the spec: the `useDebounce` hook itself is missing from
the sources — `src/hooks/use-debounce` is only imported by the search and
product-filter components.  Spec §4.1/§5: every input change cancels the
pending scheduled update and schedules a new one `delay` ms in the future
carrying the latest value; only the timer from the most recent change
ever fires.  `debounceFires delay events` lists the `(time, value)`
output updates actually delivered for a finite input trace `events`
(timestamp-ordered input changes), with the component staying mounted:
a timer fires exactly when no further input change arrives before it. -/
def debounceFires {α : Type} (delay : Nat) : List (Nat × α) → List (Nat × α)
  | [] => []
  | (t, v) :: rest =>
    match rest with
    | [] => [(t + delay, v)]
    | (t2, _) :: _ =>
      if t2 < t + delay then debounceFires delay rest
      else (t + delay, v) :: debounceFires delay rest

/-! ## The shopping-cart reducer -/

/-- A product as listed in the shop (monetary amounts appear as scaled
integers; the cart logic never computes with them). -/
structure Product where
  id : Int
  name : String
  price : Int

/-- A cart entry: a product together with its quantity. -/
structure CartItem where
  id : Int
  name : String
  price : Int
  quantity : Int

/-- The four cart actions of `CART_ACTIONS`. -/
inductive CartAction where
  | addItem (item : Product) (quantity : Int)
  | removeItem (id : Int)
  | updateQuantity (id : Int) (quantity : Int)
  | clearCart

/-- `cartReducer`: ADD_ITEM merges into an existing entry with the same
id (incrementing its quantity) or appends a new entry; REMOVE_ITEM
filters by id; UPDATE_QUANTITY rewrites the matching entry's quantity;
CLEAR_CART empties the cart. -/
def cartReducer (state : List CartItem) : CartAction → List CartItem
  | .addItem item q =>
    if (state.find? (fun i => i.id = item.id)).isSome then
      state.map (fun i =>
        if i.id = item.id then { i with quantity := i.quantity + q } else i)
    else
      state ++ [CartItem.mk item.id item.name item.price q]
  | .removeItem pid => state.filter (fun i => i.id ≠ pid)
  | .updateQuantity pid q =>
    state.map (fun i => if i.id = pid then { i with quantity := q } else i)
  | .clearCart => []

/-- The cart state after dispatching a sequence of actions, starting from
the initial `useReducer(cartReducer, [])`. -/
def runCart (actions : List CartAction) : List CartItem :=
  actions.foldl cartReducer []

/-! ## The Counter (`src/challenges/Counter.jsx`) -/

/-- A click on one of the three Counter buttons. -/
inductive CounterOp where
  | increment : CounterOp
  | decrement : CounterOp
  | reset : CounterOp

/-- One interaction with the Counter.  The decrement button carries
`disabled={count <= 0}` and the reset button `disabled={count === 0}`: a
disabled button cannot fire, so the click leaves the count unchanged.
Enabled, decrement runs `setCount(prev => prev - 1)`, increment
`setCount(prev => prev + 1)` and reset `setCount(0)`. -/
def counterStep (count : Int) : CounterOp → Int
  | .increment => count + 1
  | .decrement => if count ≤ 0 then count else count - 1
  | .reset => if count = 0 then count else 0

/-- The displayed count after a sequence of button clicks, starting from
`useState(0)`. -/
def runCounter (ops : List CounterOp) : Int :=
  ops.foldl counterStep 0



/-! ## Helper lemmas for the claims -/

theorem stringify_ne_nil (v : Json) : Json.stringify v ≠ [] := by
  have h := stringify_length_pos v
  intro hnil
  rw [Json.stringify] at hnil
  rw [hnil] at h
  simp at h

theorem parse_nil : Json.parse [] = none := rfl

theorem updateValue_store_write (st : LSState) (key : String) (v : Json) :
    (updateValue true st key v).store key = some (Json.stringify v) := by
  simp [updateValue, updateValueBody]

/-! ## C1 and its counterexample -/

/-- C1, counterexample: the claim says a corrupt raw value delivered in an
external storage notification for the subscribed key never propagates an
exception; but `handleStorage` parses `e.newValue` outside any
`try`/`catch`, so the single corrupt character `x` for the subscribed key
`k` makes the handler throw (and the in-memory value is not replaced,
hence does not fall back to the default either). -/
theorem handleStorage_corrupt_notification_throws :
    handleStorage "k" Json.null (Json.num 7) ⟨"k", some ['x']⟩
      = Except.error () := rfl

/-- C1 (amended): a read-parse failure during lazy initialization — a
missing entry or a corrupt JSON entry — never propagates an exception and
the initial value falls back to the supplied default; but a corrupt raw
value in an external storage notification for the subscribed key is
parsed outside any exception handler, so the parse failure propagates out
of the handler and the in-memory value is not replaced (no fallback). -/
theorem useLocalStorage_read_parse_failure_behavior
    (store : String → Option (List Char)) (key : String) (d cur : Json)
    (raw : List Char) :
    (store key = none → useLocalStorageInit store key d = d) ∧
    (store key = some raw → Json.parse raw = none →
      useLocalStorageInit store key d = d) ∧
    (raw ≠ [] → Json.parse raw = none →
      handleStorage key d cur ⟨key, some raw⟩ = Except.error ()) := by
  refine ⟨?_, ?_, ?_⟩
  · intro hk
    simp [useLocalStorageInit, useLocalStorageInitRaw, hk, tryCatch]
  · intro hk hp
    by_cases hnil : raw = []
    · simp [useLocalStorageInit, useLocalStorageInitRaw, hk, hnil, tryCatch]
    · simp [useLocalStorageInit, useLocalStorageInitRaw, hk, hnil, hp, tryCatch]
  · intro hnil hp
    simp [handleStorage, hnil, hp]

/-- Witness for C1's amended theorem at a concrete corrupt store. -/
theorem useLocalStorage_read_parse_failure_behavior_witness :
    useLocalStorageInit (fun _ => some ['x']) "k" (Json.num 0) = Json.num 0 ∧
    handleStorage "k" (Json.num 0) (Json.num 7) ⟨"k", some ['x']⟩
      = Except.error () := by
  have h := useLocalStorage_read_parse_failure_behavior
    (fun _ => some ['x']) "k" (Json.num 0) (Json.num 7) ['x']
  exact ⟨h.2.1 rfl rfl, h.2.2 (by decide) rfl⟩

/-! ## C2 -/

/-- C2: for every update through `updateValue`, even when the durable
store write fails (`canWrite = false`: quota exceeded, store unavailable
or serialization failure, i.e. the try-block throws after `setValue`),
the exception is swallowed and the in-memory value still updates to the
new value; the store is then left unchanged (durability not guaranteed),
while a successful write stores the serialized value. -/
theorem updateValue_store_failure_swallowed (st : LSState) (key : String)
    (v : Json) :
    (∀ canWrite : Bool, (updateValue canWrite st key v).value = v) ∧
    (updateValueBody false st key v).2 = true ∧
    (updateValue false st key v).store = st.store ∧
    (updateValue true st key v).store key = some (Json.stringify v) := by
  refine ⟨?_, rfl, rfl, updateValue_store_write st key v⟩
  intro canWrite
  cases canWrite <;> simp [updateValue, updateValueBody]

/-! ## C3 -/

/-- C3: round-trip fidelity — writing any JSON value `v` (nested arrays
and objects included) under key `key` via `updateValue` with a successful
store write, then lazily initializing a fresh instance for the same key,
yields initial value `v`: parse after serialize is the identity on the
stored value. -/
theorem useLocalStorage_roundTrip (st : LSState) (key : String) (v d : Json) :
    useLocalStorageInit (updateValue true st key v).store key d = v := by
  unfold useLocalStorageInit useLocalStorageInitRaw
  rw [updateValue_store_write st key v]
  simp only [if_neg (stringify_ne_nil v), Json.parse_stringify v, tryCatch]

/-! ## C4 -/

/-- C4: external change reaction — a storage notification for the
subscribed key replaces the in-memory value with the parse of its new raw
value, or resets it to the default when the new raw value indicates
deletion (`null`); a notification for any other key leaves the in-memory
value unchanged. -/
theorem handleStorage_cross_context (key : String) (d cur : Json)
    (raw : List Char) (v : Json) (e : StorageEvent) :
    (Json.parse raw = some v →
      handleStorage key d cur ⟨key, some raw⟩ = Except.ok v) ∧
    (handleStorage key d cur ⟨key, none⟩ = Except.ok d) ∧
    (e.key ≠ key → handleStorage key d cur e = Except.ok cur) := by
  refine ⟨?_, by simp [handleStorage], ?_⟩
  · intro hp
    have hnil : raw ≠ [] := by
      intro h
      rw [h, parse_nil] at hp
      exact Option.noConfusion hp
    simp [handleStorage, hnil, hp]
  · intro hk
    simp [handleStorage, hk]

/-- Witness for C4 at a concrete notification. -/
theorem handleStorage_cross_context_witness :
    handleStorage "k" (Json.num 0) (Json.num 5) ⟨"k", some ['1']⟩
        = Except.ok (Json.num 1) ∧
    handleStorage "k" (Json.num 0) (Json.num 5) ⟨"j", none⟩
        = Except.ok (Json.num 5) := by
  have h := handleStorage_cross_context "k" (Json.num 0) (Json.num 5) ['1']
    (Json.num 1) ⟨"j", none⟩
  exact ⟨h.1 rfl, h.2.2 (by decide)⟩



/-! ## C5 -/

/-- C5: pagination slice correctness — for page size `P ≥ 1` and current
page `N ≥ 1`, the visible rows are the slice `[(N-1)*P, N*P)` of the
source list clamped to its bounds: they have length
`min P (L - (N-1)*P)` (truncated subtraction playing `max 0`'s role), and
the `i`-th visible row is element `(N-1)*P + i` of the source list. -/
theorem visibleRows_slice_spec {α : Type} (data : List α)
    (itemsPerPage currentPage : Nat)
    (hP : 1 ≤ itemsPerPage) (hN : 1 ≤ currentPage) :
    (visibleRows data itemsPerPage currentPage).length
      = min itemsPerPage (data.length - (currentPage - 1) * itemsPerPage) ∧
    ∀ i : Nat, i < itemsPerPage →
      (visibleRows data itemsPerPage currentPage).get? i
        = data.get? ((currentPage - 1) * itemsPerPage + i) := by
  constructor
  · simp [visibleRows, List.length_take, List.length_drop]
  · intro i hi
    rw [visibleRows, List.get?_take hi, List.get?_drop]

/-- Witness for C5 on the five-element example list at page 3, size 2. -/
theorem visibleRows_slice_spec_witness :
    (visibleRows ["a", "b", "c", "d", "e"] 2 3).length = min 2 (5 - (3 - 1) * 2) ∧
    (visibleRows ["a", "b", "c", "d", "e"] 2 3).get? 0
      = ["a", "b", "c", "d", "e"].get? ((3 - 1) * 2 + 0) := by
  have h := visibleRows_slice_spec ["a", "b", "c", "d", "e"] 2 3
    (by decide) (by decide)
  exact ⟨h.1, h.2 0 (by decide)⟩

/-! ## C6 -/

theorem pageStep_bounds (tp p : Nat) (htp : 1 ≤ tp) (h1 : 1 ≤ p) (h2 : p ≤ tp) :
    ∀ nav : PageNav, 1 ≤ pageStep tp p nav ∧ pageStep tp p nav ≤ tp := by
  intro nav
  cases nav <;> simp [pageStep] <;> omega

theorem foldl_pageStep_bounds (tp : Nat) (htp : 1 ≤ tp) :
    ∀ (steps : List PageNav) (p : Nat), 1 ≤ p → p ≤ tp →
      1 ≤ steps.foldl (pageStep tp) p ∧ steps.foldl (pageStep tp) p ≤ tp := by
  intro steps
  induction steps with
  | nil => intro p h1 h2; exact ⟨h1, h2⟩
  | cons nav rest ih =>
    intro p h1 h2
    have hstep := pageStep_bounds tp p htp h1 h2 nav
    exact ih (pageStep tp p nav) hstep.1 hstep.2

/-- C6: pagination navigation invariant — with a nonempty source list and
page size `P ≥ 1`, starting from page 1 and applying any sequence of
Previous/Next clicks keeps the current page within `[1, ceil(L/P)]`; in
particular, on `["a","b","c","d","e"]` with page size 2, page 1 shows
`["a","b"]`, page 3 shows `["e"]`, Next from page 3 is a no-op (the page
stays 3), and Previous from page 1 is a no-op. -/
theorem pagination_navigation_invariant (length itemsPerPage : Nat)
    (steps : List PageNav) (hP : 1 ≤ itemsPerPage) (hL : 1 ≤ length) :
    (1 ≤ runNav (totalPages length itemsPerPage) steps ∧
      runNav (totalPages length itemsPerPage) steps
        ≤ totalPages length itemsPerPage) ∧
    visibleRows ["a", "b", "c", "d", "e"] 2 1 = ["a", "b"] ∧
    visibleRows ["a", "b", "c", "d", "e"] 2 3 = ["e"] ∧
    pageStep (totalPages 5 2) 3 .next = 3 ∧
    pageStep (totalPages 5 2) 1 .previous = 1 := by
  have htp : 1 ≤ totalPages length itemsPerPage := by
    rw [totalPages, Nat.one_le_div_iff (by omega)]
    omega
  exact ⟨foldl_pageStep_bounds _ htp steps 1 le_rfl htp, by decide, by decide,
    by decide, by decide⟩

/-- Witness for C6 with the example list and three Next clicks. -/
theorem pagination_navigation_invariant_witness :
    1 ≤ runNav (totalPages 5 2) [.next, .next, .next] ∧
    runNav (totalPages 5 2) [.next, .next, .next] ≤ totalPages 5 2 := by
  exact (pagination_navigation_invariant 5 2 [.next, .next, .next]
    (by decide) (by decide)).1

/-! ## C7 -/

/-- C7: fetch-users error handling — an abort (the cancellation triggered
by unmount) is filtered out and never recorded as an error; a non-ok HTTP
response and a network error are recorded and rendered as the error view,
which displays the message together with the Try Again retry action; that
action performs exactly one manual `handleRefetch` (by construction, no
transition of the model retries on its own), and a successful fetch or
refetch records no error. -/
theorem fetchUsers_error_handling (st : FetchState) (status : Nat)
    (msg : String) (us : List String) (o : RefetchOutcome) :
    (runFetch st .aborted).error = none ∧
    (runFetch st (.httpError status)).error = some (httpErrorMessage status) ∧
    (runFetch st (.networkError msg)).error = some msg ∧
    (runFetch st (.success us)).error = none ∧
    renderFetchUsers (runFetch st (.httpError status))
      = .errorView (httpErrorMessage status) .refetch ∧
    renderFetchUsers (runFetch st (.networkError msg))
      = .errorView msg .refetch ∧
    applyFetchAction st .refetch o = handleRefetch st o ∧
    (handleRefetch st (.success us)).error = none ∧
    (handleRefetch st (.httpError status)).error
      = some (httpErrorMessage status) := by
  refine ⟨rfl, rfl, rfl, rfl, ?_, ?_, rfl, rfl, rfl⟩
  · simp [renderFetchUsers, runFetch]
  · simp [renderFetchUsers, runFetch]



/-! ## C8 -/

/-- C8 (spec-modelled): debounce settling — for a rapid input sequence in
which every value arrives strictly before `delay` elapses from the
previous one, exactly one output update is delivered: the last value, at
time exactly `(timestamp of the last value) + delay` (hence ≥ it); no
earlier value is ever output, because each input change cancels the
pending timer and only the most recent change's timer fires. -/
theorem useDebounce_settling : ∀ {α : Type} (delay : Nat)
    (events : List (Nat × α)) (hne : events ≠ [])
    (hrapid : events.Chain' (fun a b => b.1 < a.1 + delay)),
    debounceFires delay events
      = [((events.getLast hne).1 + delay, (events.getLast hne).2)]
  | α, delay, [], hne, _ => absurd rfl hne
  | α, delay, [(t, v)], _, _ => by simp [debounceFires]
  | α, delay, (t, v) :: (t2, v2) :: rest, _, hrapid => by
    obtain ⟨h12, hch⟩ := List.chain'_cons.mp hrapid
    have ih := useDebounce_settling delay ((t2, v2) :: rest) (by simp) hch
    rw [List.getLast_cons (by simp)]
    rw [show debounceFires delay ((t, v) :: (t2, v2) :: rest)
        = debounceFires delay ((t2, v2) :: rest) from by
      simp [debounceFires, h12]]
    exact ih

/-- Witness for C8: three rapid inputs, delay 200 — only the last fires. -/
theorem useDebounce_settling_witness :
    debounceFires 200 [(0, 1), (100, 2), (150, 3)] = [(350, 3)] := by
  have h := useDebounce_settling 200 [(0, (1 : Nat)), (100, 2), (150, 3)]
    (by decide)
    (List.chain'_cons.mpr ⟨by norm_num,
      List.chain'_cons.mpr ⟨by norm_num, List.chain'_singleton _⟩⟩)
  simpa using h

/-! ## C9 -/

theorem cartReducer_preserves_nodup (s : List CartItem) (a : CartAction)
    (h : (s.map CartItem.id).Nodup) :
    ((cartReducer s a).map CartItem.id).Nodup := by
  cases a with
  | addItem item q =>
    by_cases hf : (s.find? (fun i => i.id = item.id)).isSome = true
    · simp only [cartReducer, hf, if_true]
      have hids : (s.map (fun i =>
          if i.id = item.id then { i with quantity := i.quantity + q } else i)).map
            CartItem.id = s.map CartItem.id := by
        rw [List.map_map]
        apply List.map_eq_map_iff.mpr
        intro i _
        by_cases h2 : i.id = item.id <;> simp [h2]
      rw [hids]
      exact h
    · have hred : cartReducer s (.addItem item q)
          = s ++ [CartItem.mk item.id item.name item.price q] := by
        simp only [cartReducer]
        rw [if_neg hf]
      have hnone : s.find? (fun i => i.id = item.id) = none := by
        cases hfind : s.find? (fun i => i.id = item.id) with
        | none => rfl
        | some x => exact absurd (by rw [hfind]; rfl) hf
      have hnotin : item.id ∉ s.map CartItem.id := by
        rw [List.find?_eq_none] at hnone
        intro hmem
        obtain ⟨i, hi, hid⟩ := List.mem_map.mp hmem
        exact hnone i hi (by simp [hid])
      rw [hred]
      simp only [List.map_append, List.map_cons, List.map_nil]
      rw [List.nodup_append]
      exact ⟨h, List.nodup_singleton _, by simpa using hnotin⟩
  | removeItem pid =>
    exact List.Sublist.nodup
      (List.Sublist.map CartItem.id (List.filter_sublist s)) h
  | updateQuantity pid q =>
    have hids : (s.map (fun i =>
        if i.id = pid then { i with quantity := q } else i)).map CartItem.id
          = s.map CartItem.id := by
      rw [List.map_map]
      apply List.map_eq_map_iff.mpr
      intro i _
      by_cases h2 : i.id = pid <;> simp [h2]
    simp only [cartReducer]
    rw [hids]
    exact h
  | clearCart => simp [cartReducer]

theorem foldl_cartReducer_nodup :
    ∀ (actions : List CartAction) (s : List CartItem),
      (s.map CartItem.id).Nodup →
      ((actions.foldl cartReducer s).map CartItem.id).Nodup := by
  intro actions
  induction actions with
  | nil => intro s h; exact h
  | cons a rest ih =>
    intro s h
    exact ih (cartReducer s a) (cartReducer_preserves_nodup s a h)

/-- C9: cart-reducer id uniqueness — every action sequence dispatched from
the empty cart keeps the item ids pairwise distinct; in particular,
ADD_ITEM with an id already in the cart leaves the length and the id list
unchanged, and entry by entry the matching entry's quantity is
incremented by the payload quantity while every entry with a different
id is kept untouched (no duplicate entry is appended). -/
theorem cartReducer_id_uniqueness (actions : List CartAction)
    (s : List CartItem) (item : Product) (q : Int)
    (hdup : item.id ∈ s.map CartItem.id) :
    ((runCart actions).map CartItem.id).Nodup ∧
    (cartReducer s (.addItem item q)).length = s.length ∧
    (cartReducer s (.addItem item q)).map CartItem.id = s.map CartItem.id ∧
    (∀ (k : Nat) (h : k < s.length),
      (cartReducer s (.addItem item q)).get? k
        = some (if (s.get ⟨k, h⟩).id = item.id
            then { s.get ⟨k, h⟩ with
                    quantity := (s.get ⟨k, h⟩).quantity + q }
            else s.get ⟨k, h⟩)) ∧
    ∀ j ∈ s, j.id ≠ item.id → j ∈ cartReducer s (.addItem item q) := by
  have hf : (s.find? (fun i => i.id = item.id)).isSome = true := by
    rw [List.find?_isSome]
    obtain ⟨i, hi, hid⟩ := List.mem_map.mp hdup
    exact ⟨i, hi, by simp [hid]⟩
  have hids : (s.map (fun i =>
      if i.id = item.id then { i with quantity := i.quantity + q } else i)).map
        CartItem.id = s.map CartItem.id := by
    rw [List.map_map]
    apply List.map_eq_map_iff.mpr
    intro i _
    by_cases h2 : i.id = item.id <;> simp [h2]
  refine ⟨foldl_cartReducer_nodup actions [] (by simp), ?_, ?_, ?_, ?_⟩
  · simp [cartReducer, hf]
  · simp only [cartReducer, hf, if_true]
    exact hids
  · intro k h
    simp only [cartReducer, hf, if_true]
    rw [List.get?_map, List.get?_eq_get h, Option.map_some']
  · intro j hj hne
    simp only [cartReducer, hf, if_true]
    exact List.mem_map.mpr ⟨j, hj, by simp [hne]⟩

/-- Witness for C9: adding id 1 (quantity 2) to a cart already holding id
1 with quantity 1 merges into one entry of quantity 3 instead of
duplicating the entry. -/
theorem cartReducer_id_uniqueness_witness :
    ((runCart [.addItem ⟨1, "React T-Shirt", 2999⟩ 1,
        .addItem ⟨1, "React T-Shirt", 2999⟩ 2]).map CartItem.id).Nodup ∧
    (cartReducer [⟨1, "React T-Shirt", 2999, 1⟩]
      (.addItem ⟨1, "React T-Shirt", 2999⟩ 2)).length = 1 ∧
    (cartReducer [⟨1, "React T-Shirt", 2999, 1⟩]
      (.addItem ⟨1, "React T-Shirt", 2999⟩ 2)).get? 0
        = some ⟨1, "React T-Shirt", 2999, 3⟩ := by
  have h := cartReducer_id_uniqueness
    [.addItem ⟨1, "React T-Shirt", 2999⟩ 1, .addItem ⟨1, "React T-Shirt", 2999⟩ 2]
    [⟨1, "React T-Shirt", 2999, 1⟩] ⟨1, "React T-Shirt", 2999⟩ 2 (by simp)
  refine ⟨h.1, h.2.1, ?_⟩
  rw [h.2.2.2.1 0 (by decide)]
  rfl

/-! ## C10 -/

theorem foldl_counterStep_nonneg :
    ∀ (ops : List CounterOp) (c : Int), 0 ≤ c → 0 ≤ ops.foldl counterStep c := by
  intro ops
  induction ops with
  | nil => intro c h; exact h
  | cons op rest ih =>
    intro c h
    apply ih
    cases op with
    | increment => simp only [counterStep]; omega
    | decrement => simp only [counterStep]; split <;> omega
    | reset => simp only [counterStep]; split <;> omega

/-- C10: counter non-negativity — the decrement button is disabled (a
no-op) whenever the count is ≤ 0, increment adds 1, reset yields 0, and
therefore every click sequence starting from the initial count 0 keeps
the displayed count ≥ 0. -/
theorem counter_nonneg_invariant (ops : List CounterOp) (c : Int) :
    0 ≤ runCounter ops ∧
    counterStep c .increment = c + 1 ∧
    (c ≤ 0 → counterStep c .decrement = c) ∧
    (0 < c → counterStep c .decrement = c - 1) ∧
    counterStep c .reset = 0 := by
  refine ⟨foldl_counterStep_nonneg ops 0 le_rfl, rfl, ?_, ?_, ?_⟩
  · intro h; simp [counterStep, h]
  · intro h; simp [counterStep, show ¬ c ≤ 0 by omega]
  · by_cases h : c = 0 <;> simp [counterStep, h]

/-- Witness for C10: a decrement at count 0 is a no-op and the invariant
holds on a concrete click sequence. -/
theorem counter_nonneg_invariant_witness :
    0 ≤ runCounter [.increment, .decrement, .decrement] ∧
    counterStep 0 .decrement = 0 := by
  have h := counter_nonneg_invariant [.increment, .decrement, .decrement] 0
  exact ⟨h.1, h.2.2.1 (by decide)⟩


end ReactChallenges
